import Mathlib

/- Verification development for the IceBox service container
   (cpp/src/IceBox/ServiceManagerI.cpp) and the IceUtil reference-counting
   base class (cpp/include/IceUtil/Shared.h), via a shallow embedding.

   Strings are modelled as Lean Strings; where the C++ works with
   std::string positions (find_first_of, substr) we work on the underlying
   character list. std::map iteration is modelled by sorted association
   lists under the lexicographic character order, which is what
   std::string::operator< computes. -/

namespace IceBoxV

/-- Whitespace set used by the descriptor parser of ServiceManagerI::run:
the character set handed to find_first_of is space, tab, newline. -/
def isWS (c : Char) : Bool :=
  c = ' ' || c = '\t' || c = '\n'

/-- Index of the first character of the list satisfying p, if any. -/
def firstIdx (p : Char → Bool) : List Char → Option Nat
  | [] => none
  | c :: cs => if p c then some 0 else (firstIdx p cs).map (· + 1)

theorem firstIdx_none {p : Char → Bool} :
    ∀ {l : List Char}, firstIdx p l = none → ∀ c ∈ l, p c = false := by
  intro l
  induction l with
  | nil => intro _ c hc; cases hc
  | cons a as ih =>
    intro h c hc
    cases hpa : p a with
    | true => simp [firstIdx, hpa] at h
    | false =>
      simp only [firstIdx, hpa, Bool.false_eq_true, if_false] at h
      have has : firstIdx p as = none := by
        cases hfi : firstIdx p as <;> simp [hfi] at h ⊢
      cases hc with
      | head => exact hpa
      | tail _ hmem => exact ih has c hmem

theorem firstIdx_some_lt {p : Char → Bool} :
    ∀ {l : List Char} {k : Nat}, firstIdx p l = some k → k < l.length := by
  intro l
  induction l with
  | nil => intro k h; simp [firstIdx] at h
  | cons a as ih =>
    intro k h
    cases hpa : p a with
    | true =>
      rw [firstIdx, if_pos hpa] at h
      cases h
      simp
    | false =>
      rw [firstIdx, if_neg (by simp [hpa])] at h
      cases hfi : firstIdx p as with
      | none => rw [hfi] at h; exact Option.noConfusion h
      | some j =>
        rw [hfi] at h
        simp only [Option.map_some'] at h
        cases h
        have := ih hfi
        simp only [List.length_cons]
        omega

theorem firstIdx_take {p : Char → Bool} :
    ∀ {l : List Char} {k : Nat}, firstIdx p l = some k →
      l.take k = l.takeWhile (fun c => !p c) := by
  intro l
  induction l with
  | nil => intro k h; simp [firstIdx] at h
  | cons a as ih =>
    intro k h
    cases hpa : p a with
    | true =>
      rw [firstIdx, if_pos hpa] at h
      cases h
      simp [List.takeWhile_cons, hpa]
    | false =>
      rw [firstIdx, if_neg (by simp [hpa])] at h
      cases hfi : firstIdx p as with
      | none => rw [hfi] at h; exact Option.noConfusion h
      | some j =>
        rw [hfi] at h
        simp only [Option.map_some'] at h
        cases h
        simp [List.takeWhile_cons, hpa, ih hfi]

theorem firstIdx_drop {p : Char → Bool} :
    ∀ {l : List Char} {k : Nat}, firstIdx p l = some k →
      l.drop k = l.dropWhile (fun c => !p c) := by
  intro l
  induction l with
  | nil => intro k h; simp [firstIdx] at h
  | cons a as ih =>
    intro k h
    cases hpa : p a with
    | true =>
      rw [firstIdx, if_pos hpa] at h
      cases h
      simp [List.dropWhile_cons, hpa]
    | false =>
      rw [firstIdx, if_neg (by simp [hpa])] at h
      cases hfi : firstIdx p as with
      | none => rw [hfi] at h; exact Option.noConfusion h
      | some j =>
        rw [hfi] at h
        simp only [Option.map_some'] at h
        cases h
        simp [List.dropWhile_cons, hpa, ih hfi]

theorem firstIdx_get {p : Char → Bool} :
    ∀ {l : List Char} {k : Nat}, firstIdx p l = some k →
      ∃ c, l[k]? = some c ∧ p c = true := by
  intro l
  induction l with
  | nil => intro k h; simp [firstIdx] at h
  | cons a as ih =>
    intro k h
    cases hpa : p a with
    | true =>
      rw [firstIdx, if_pos hpa] at h
      cases h
      exact ⟨a, by simp, hpa⟩
    | false =>
      rw [firstIdx, if_neg (by simp [hpa])] at h
      cases hfi : firstIdx p as with
      | none => rw [hfi] at h; exact Option.noConfusion h
      | some j =>
        rw [hfi] at h
        simp only [Option.map_some'] at h
        cases h
        obtain ⟨c, hc, hpc⟩ := ih hfi
        exact ⟨c, by simpa using hc, hpc⟩

theorem firstIdx_cons_of_not {p : Char → Bool} {c : Char} {cs : List Char}
    (h : p c = false) : firstIdx p (c :: cs) = (firstIdx p cs).map (· + 1) := by
  simp [firstIdx, h]

theorem length_dropWhile_le (p : Char → Bool) :
    ∀ l : List Char, (l.dropWhile p).length ≤ l.length := by
  intro l
  induction l with
  | nil => simp
  | cons a as ih =>
    by_cases hpa : p a = true
    · simp only [List.dropWhile, hpa]
      exact Nat.le_trans ih (Nat.le_succ _)
    · simp only [Bool.not_eq_true] at hpa
      simp [List.dropWhile, hpa]

/-- Maximal runs of non-whitespace characters of a string, in order. This is
the specification-side tokenization: whitespace-separated tokens. -/
def splitWS : List Char → List (List Char)
  | [] => []
  | c :: cs =>
    if isWS c then splitWS cs
    else (c :: cs.takeWhile (fun d => !isWS d)) :: splitWS (cs.dropWhile (fun d => !isWS d))
termination_by l => l.length
decreasing_by
  · simp only [List.length_cons]; omega
  · simp only [List.length_cons]
    exact Nat.lt_succ_of_le (length_dropWhile_le _ cs)

theorem splitWS_nil : splitWS [] = [] := by
  simp [splitWS]

theorem splitWS_cons_ws {c : Char} {cs : List Char} (h : isWS c = true) :
    splitWS (c :: cs) = splitWS cs := by
  rw [splitWS]
  simp [h]

theorem splitWS_cons_not_ws {c : Char} {cs : List Char} (h : isWS c = false) :
    splitWS (c :: cs) =
      (c :: cs.takeWhile (fun d => !isWS d)) :: splitWS (cs.dropWhile (fun d => !isWS d)) := by
  rw [splitWS]
  simp [h]

theorem splitWS_all_ws : ∀ {l : List Char}, (∀ c ∈ l, isWS c = true) → splitWS l = [] := by
  intro l
  induction l with
  | nil => intro _; exact splitWS_nil
  | cons a as ih =>
    intro h
    rw [splitWS_cons_ws (h a (by simp))]
    exact ih (fun c hc => h c (by simp [hc]))

theorem splitWS_all_not_ws : ∀ {l : List Char}, l ≠ [] → (∀ c ∈ l, isWS c = false) →
    splitWS l = [l] := by
  intro l
  cases l with
  | nil => intro h; exact absurd rfl h
  | cons a as =>
    intro _ h
    rw [splitWS_cons_not_ws (h a (by simp))]
    have hall : ∀ c ∈ as, (!isWS c) = true := by
      intro c hc
      simp [h c (List.mem_cons_of_mem a hc)]
    have htw : as.takeWhile (fun d => !isWS d) = as :=
      List.takeWhile_eq_self_iff.mpr hall
    have hdw : as.dropWhile (fun d => !isWS d) = [] :=
      List.dropWhile_eq_nil_iff.mpr hall
    rw [htw, hdw, splitWS_nil]

theorem splitWS_dropWhile_ws : ∀ l : List Char, splitWS (l.dropWhile isWS) = splitWS l := by
  intro l
  induction l with
  | nil => simp
  | cons a as ih =>
    by_cases ha : isWS a = true
    · simp only [List.dropWhile_cons, ha, if_true]
      rw [ih, splitWS_cons_ws ha]
    · simp only [Bool.not_eq_true] at ha
      simp [List.dropWhile_cons, ha]

/-- Model of std::string::find_first_of for the whitespace set, searching
from position pos: the least absolute index at or after pos holding a
whitespace character; none models std::string::npos. -/
def strFindFirstOf (s : List Char) (pos : Nat) : Option Nat :=
  (firstIdx isWS (s.drop pos)).map (· + pos)

/-- Model of std::string::find_first_not_of for the whitespace set,
searching from position pos. -/
def strFindFirstNotOf (s : List Char) (pos : Nat) : Option Nat :=
  (firstIdx (fun c => !isWS c) (s.drop pos)).map (· + pos)

/-- The argument-collection while loop of ServiceManagerI::run (lines
96-109 of ServiceManagerI.cpp), with explicit fuel for termination; the
loop variable beg = none models npos. Each iteration strictly advances
beg, so any fuel of at least s.length suffices. -/
def argsLoop (s : List Char) : Nat → Option Nat → List (List Char)
  | _, none => []
  | 0, some _ => []
  | fuel + 1, some beg =>
    match strFindFirstOf s beg with
    | none => [s.drop beg]
    | some e => ((s.drop beg).take (e - beg)) :: argsLoop s fuel (strFindFirstNotOf s e)

/-- The per-service descriptor parse performed by ServiceManagerI::run
(lines 85-110): the entry point is the prefix of the value up to the first
whitespace character (the whole value when there is none), and the
arguments are collected by the while loop starting at the first
non-whitespace position after it. -/
def parseServiceValue (s : List Char) : List Char × List (List Char) :=
  match strFindFirstOf s 0 with
  | none => (s, [])
  | some pos => (s.take pos, argsLoop s (s.length + 1) (strFindFirstNotOf s pos))

/-- The tokenization described by the specification for
IceBox.Service.name values: split on maximal whitespace runs, first token
is the entry point, remaining tokens are the arguments. -/
def claimParse (s : List Char) : List Char × List (List Char) :=
  ((splitWS s).headD [], (splitWS s).tail)

/-- True when the value starts with a whitespace character. -/
def wsHead : List Char → Bool
  | [] => false
  | c :: _ => isWS c

theorem dropWhile_not_not (l : List Char) :
    (l.dropWhile fun c => !(!isWS c)) = l.dropWhile isWS := by
  simp only [Bool.not_not]

theorem argsLoop_succ_none {s : List Char} {f b : Nat}
    (h : strFindFirstOf s b = none) : argsLoop s (f + 1) (some b) = [s.drop b] := by
  rw [argsLoop, h]

theorem argsLoop_succ_some {s : List Char} {f b e : Nat}
    (h : strFindFirstOf s b = some e) :
    argsLoop s (f + 1) (some b) =
      ((s.drop b).take (e - b)) :: argsLoop s f (strFindFirstNotOf s e) := by
  rw [argsLoop, h]

theorem parseServiceValue_of_none {s : List Char}
    (h : strFindFirstOf s 0 = none) : parseServiceValue s = (s, []) := by
  rw [parseServiceValue, h]

theorem parseServiceValue_of_some {s : List Char} {pos : Nat}
    (h : strFindFirstOf s 0 = some pos) :
    parseServiceValue s =
      (s.take pos, argsLoop s (s.length + 1) (strFindFirstNotOf s pos)) := by
  rw [parseServiceValue, h]

/-- The while loop of the descriptor parse computes exactly the whitespace
tokenization of the remaining suffix: at a position on a non-whitespace
character the collected arguments are the tokens of the suffix, and when
the loop is entered through find_first_not_of the leading whitespace is
skipped exactly as the tokenization does. -/
theorem argsLoop_bridge (s : List Char) : ∀ fuel : Nat,
    (∀ b c, s[b]? = some c → isWS c = false → s.length - b ≤ fuel →
      argsLoop s fuel (some b) = splitWS (s.drop b)) ∧
    (∀ e, s.length - e ≤ fuel →
      argsLoop s fuel (strFindFirstNotOf s e) = splitWS (s.drop e)) := by
  intro fuel
  induction fuel with
  | zero =>
    constructor
    · intro b c hb _ hle
      have hblt : b < s.length := by
        by_contra hcon
        rw [List.getElem?_eq_none (by omega)] at hb
        exact Option.noConfusion hb
      omega
    · intro e hle
      have hdrop : s.drop e = [] := List.drop_eq_nil_of_le (by omega)
      rw [strFindFirstNotOf, hdrop, splitWS_nil]
      rfl
  | succ f ih =>
    have hL : ∀ b c, s[b]? = some c → isWS c = false → s.length - b ≤ f + 1 →
        argsLoop s (f + 1) (some b) = splitWS (s.drop b) := by
      intro b c hb hws hle
      have hblt : b < s.length := by
        by_contra hcon
        rw [List.getElem?_eq_none (by omega)] at hb
        exact Option.noConfusion hb
      have hgetb : s[b] = c := by
        have := List.getElem?_eq_getElem hblt
        rw [this] at hb
        exact (Option.some.injEq _ _).mp hb.symm |>.symm
      have hdropb : s.drop b = c :: s.drop (b + 1) := by
        rw [List.drop_eq_getElem_cons hblt, hgetb]
      cases hfi : firstIdx isWS (s.drop b) with
      | none =>
        have hfo : strFindFirstOf s b = none := by
          rw [strFindFirstOf, hfi]; rfl
        have hall := firstIdx_none hfi
        rw [argsLoop_succ_none hfo]
        rw [splitWS_all_not_ws (by rw [hdropb]; exact List.cons_ne_nil _ _) hall]
      | some k =>
        have hfo : strFindFirstOf s b = some (k + b) := by
          rw [strFindFirstOf, hfi]; rfl
        have hk1 : 1 ≤ k := by
          rcases Nat.eq_zero_or_pos k with hk0 | hk0
          · subst hk0
            obtain ⟨c0, hc0, hpc0⟩ := firstIdx_get hfi
            rw [hdropb] at hc0
            simp only [List.getElem?_cons_zero, Option.some.injEq] at hc0
            subst hc0
            rw [hws] at hpc0
            exact Bool.noConfusion hpc0
          · omega
        have hklt : k < (s.drop b).length := firstIdx_some_lt hfi
        rw [argsLoop_succ_some hfo]
        have harith : k + b - b = k := by omega
        rw [harith]
        have htail : argsLoop s f (strFindFirstNotOf s (k + b)) = splitWS (s.drop (k + b)) := by
          apply ih.2
          rw [List.length_drop] at hklt
          omega
        have hdd : s.drop (k + b) = (s.drop b).drop k := by
          rw [Nat.add_comm k b]
          exact (List.drop_drop k b s).symm
        have hdw : (s.drop b).drop k = (s.drop b).dropWhile (fun d => !isWS d) :=
          firstIdx_drop hfi
        have htk : (s.drop b).take k = (s.drop b).takeWhile (fun d => !isWS d) :=
          firstIdx_take hfi
        rw [htail, hdd, hdw, htk, hdropb, splitWS_cons_not_ws hws]
        simp only [List.takeWhile_cons, List.dropWhile_cons, hws, Bool.not_false, if_true]
    refine ⟨hL, ?_⟩
    intro e hle
    cases hfi : firstIdx (fun c => !isWS c) (s.drop e) with
    | none =>
      have hfn : strFindFirstNotOf s e = none := by
        rw [strFindFirstNotOf, hfi]; rfl
      have hall : ∀ c ∈ s.drop e, isWS c = true := by
        intro c hc
        have := firstIdx_none hfi c hc
        simpa using this
      rw [hfn, splitWS_all_ws hall]
      rfl
    | some m =>
      have hfn : strFindFirstNotOf s e = some (m + e) := by
        rw [strFindFirstNotOf, hfi]; rfl
      obtain ⟨c, hc, hpc⟩ := firstIdx_get hfi
      have hcs : s[m + e]? = some c := by
        rw [List.getElem?_drop] at hc
        rw [Nat.add_comm m e]
        exact hc
      have hws : isWS c = false := by
        simpa using hpc
      have hdd : s.drop (m + e) = (s.drop e).drop m := by
        rw [Nat.add_comm m e]
        exact (List.drop_drop m e s).symm
      have hdwm : (s.drop e).drop m = (s.drop e).dropWhile isWS := by
        rw [firstIdx_drop hfi, dropWhile_not_not]
      rw [hfn, hL (m + e) c hcs hws (by omega), hdd, hdwm, splitWS_dropWhile_ws]

/-- The parse of run agrees with the specification tokenization exactly on
values that do not begin with whitespace; a value beginning with
whitespace yields an empty entry point with every token as an argument. -/
theorem parseServiceValue_eq (s : List Char) :
    parseServiceValue s = if wsHead s then ([], splitWS s) else claimParse s := by
  cases s with
  | nil =>
    have hfo : strFindFirstOf [] 0 = none := rfl
    rw [parseServiceValue_of_none hfo]
    simp [wsHead, claimParse, splitWS_nil]
  | cons a as =>
    by_cases ha : isWS a = true
    · have hw : wsHead (a :: as) = true := ha
      have hfo : strFindFirstOf (a :: as) 0 = some 0 := by
        rw [strFindFirstOf]
        simp [firstIdx, ha]
      rw [parseServiceValue_of_some hfo, hw, if_pos rfl]
      have hb := (argsLoop_bridge (a :: as) ((a :: as).length + 1)).2 0 (by omega)
      rw [hb]
      simp
    · simp only [Bool.not_eq_true] at ha
      have hw : wsHead (a :: as) = false := ha
      rw [hw]
      simp only [Bool.false_eq_true, if_false]
      cases hfi : firstIdx isWS (a :: as) with
      | none =>
        have hfo : strFindFirstOf (a :: as) 0 = none := by
          rw [strFindFirstOf]
          simp only [List.drop_zero, hfi]
          rfl
        rw [parseServiceValue_of_none hfo]
        rw [claimParse, splitWS_all_not_ws (List.cons_ne_nil a as) (firstIdx_none hfi)]
        simp
      | some k =>
        have hfo : strFindFirstOf (a :: as) 0 = some k := by
          rw [strFindFirstOf]
          simp only [List.drop_zero, hfi]
          simp
        rw [parseServiceValue_of_some hfo]
        have hb := (argsLoop_bridge (a :: as) ((a :: as).length + 1)).2 k (by omega)
        rw [hb]
        have htk : (a :: as).take k = (a :: as).takeWhile (fun d => !isWS d) :=
          firstIdx_take hfi
        have hdk : (a :: as).drop k = (a :: as).dropWhile (fun d => !isWS d) :=
          firstIdx_drop hfi
        rw [claimParse, splitWS_cons_not_ws ha, htk, hdk]
        simp only [List.takeWhile_cons, List.dropWhile_cons, ha, Bool.not_false, if_true,
          List.headD_cons, List.tail_cons]

/-- C3 (counterexample): on the value consisting of a space followed by the
letter a, the parse of run yields an empty entry point and the single token
as an argument, while the claimed split-and-take-first-token description
yields that token as the entry point with no arguments; the two disagree. -/
theorem c3_counterexample :
    parseServiceValue (" a".data) = ([], [['a']]) ∧
    claimParse (" a".data) = (['a'], []) ∧
    parseServiceValue (" a".data) ≠ claimParse (" a".data) := by
  have h1 : parseServiceValue (" a".data) = ([], [['a']]) := by decide
  have h2 : claimParse (" a".data) = (['a'], []) := by
    have h : (" a".data : List Char) = [' ', 'a'] := by decide
    rw [claimParse, h, splitWS_cons_ws (by decide), splitWS_cons_not_ws (by decide)]
    simp [splitWS_nil]
  refine ⟨h1, h2, ?_⟩
  rw [h1, h2]
  simp

/-- C3 (amended): the parse performed by run yields the same
(entryPoint, args) as splitting the value on maximal runs of space, tab and
newline with the first token as entry point and the rest as args, for every
value that does not begin with a whitespace character (as the value grammar
of the specification requires); on a value that begins with whitespace the
parse instead yields an empty entry point and every token as an argument. -/
theorem c3_tokenization (s : List Char) :
    parseServiceValue s = if wsHead s then ([], splitWS s) else claimParse s :=
  parseServiceValue_eq s

/-- State of IceUtil::SimpleShared (Shared.h lines 116-162): the reference
count _ref (a C++ int, kept in range by the caller, modelled as an
integer) and the _noDelete flag. -/
structure SimpleShared where
  ref : Int
  noDelete : Bool

/-- SimpleShared::__incRef: increments _ref. The assertion _ref >= 0 of the
source is a precondition of the theorems below. -/
def SimpleShared.__incRef (s : SimpleShared) : SimpleShared :=
  { s with ref := s.ref + 1 }

/-- SimpleShared::__decRef: decrements _ref and deletes the object when the
count reaches zero and _noDelete is unset; the Boolean reports the
deletion. The assertion _ref > 0 of the source is a precondition. -/
def SimpleShared.__decRef (s : SimpleShared) : SimpleShared × Bool :=
  ({ s with ref := s.ref - 1 }, decide (s.ref - 1 = 0) && !s.noDelete)

/-- SimpleShared::__getRef. -/
def SimpleShared.__getRef (s : SimpleShared) : Int := s.ref

/-- SimpleShared::__setNoDelete. -/
def SimpleShared.__setNoDelete (s : SimpleShared) (b : Bool) : SimpleShared :=
  { s with noDelete := b }

/-- C10: __incRef increases the count by exactly one; __decRef decreases it
by exactly one and deletes exactly when the count reaches zero and
_noDelete is false; and for every count of at least one, __incRef followed
by __decRef leaves __getRef unchanged and does not delete the object. The
source assertions (_ref >= 0 before increment, _ref > 0 before decrement)
appear as hypotheses. -/
theorem c10_simple_shared (s : SimpleShared) :
    (0 ≤ s.ref → (s.__incRef).__getRef = s.__getRef + 1) ∧
    (0 < s.ref →
      (s.__decRef).1.__getRef = s.__getRef - 1 ∧
      ((s.__decRef).2 = true ↔ (s.ref - 1 = 0 ∧ s.noDelete = false))) ∧
    (1 ≤ s.ref →
      ((s.__incRef).__decRef).1.__getRef = s.__getRef ∧
      ((s.__incRef).__decRef).2 = false) := by
  refine ⟨?_, ?_, ?_⟩
  · intro _
    simp [SimpleShared.__incRef, SimpleShared.__getRef]
  · intro _
    constructor
    · simp [SimpleShared.__decRef, SimpleShared.__getRef]
    · simp [SimpleShared.__decRef]
  · intro h
    constructor
    · simp only [SimpleShared.__incRef, SimpleShared.__decRef, SimpleShared.__getRef]
      omega
    · simp only [SimpleShared.__incRef, SimpleShared.__decRef]
      have hne : ¬s.ref + 1 - 1 = 0 := by omega
      rw [decide_eq_false hne]
      simp

/-- C10 witness: the reference-count laws evaluated at a live count of two
with _noDelete unset. -/
theorem c10_simple_shared_witness :
    ((0 : Int) ≤ 2 ∧
      ((SimpleShared.mk 2 false).__incRef).__getRef = (SimpleShared.mk 2 false).__getRef + 1) ∧
    ((0 : Int) < 2 ∧
      ((SimpleShared.mk 2 false).__decRef).1.__getRef = (SimpleShared.mk 2 false).__getRef - 1) ∧
    ((1 : Int) ≤ 2 ∧
      (((SimpleShared.mk 2 false).__incRef).__decRef).2 = false) :=
  ⟨⟨by decide, (c10_simple_shared ⟨2, false⟩).1 (by decide)⟩,
   ⟨by decide, ((c10_simple_shared ⟨2, false⟩).2.1 (by decide)).1⟩,
   ⟨by decide, ((c10_simple_shared ⟨2, false⟩).2.2 (by decide)).2⟩⟩

/- ----------------------------------------------------------------------
   The service manager itself (ServiceManagerI.cpp). Exceptions of the Ice
   runtime are either the IceBox FailureException or some other
   Ice::Exception identified by its ice_name(); the factory call is the
   one place with a catch-all, so only there a non-Ice exception can be
   observed by the manager and it is modelled only there. std::map is
   modelled by an association list kept sorted under the character-wise
   lexicographic order that std::string::operator< computes; iteration is
   list order.
   ---------------------------------------------------------------------- -/

/-- Exceptions thrown across the service boundary: the IceBox
FailureException carrying a reason, or any other Ice exception carrying
its ice_name. -/
inductive Exn where
  | failure (reason : String)
  | other (nm : String)
deriving DecidableEq

/-- The ice_name() of an exception, as used when the source composes
failure reasons from a caught Ice::Exception. -/
def iceName : Exn → String
  | .failure _ => "IceBox::FailureException"
  | .other nm => nm

/-- The source quotes entry points between a backquote and an apostrophe
(codepoint 39). -/
def quoted (s : String) : String :=
  "`" ++ s ++ String.singleton (Char.ofNat 39)

/-- Outcome of invoking the loaded C-ABI factory function: normal return,
an Ice exception, or any other thrown value (caught by the catch-all). -/
inductive FactoryBeh where
  | ok
  | throwEx (e : Exn)
  | throwForeign
deriving DecidableEq

/-- Externally determined behavior of one configured service: whether its
entry point resolves (and the loader error message when not), what the
factory invocation does, and what Service::init, start and stop do
(none = return normally, some e = throw e). -/
structure ServiceBeh where
  loadOk : Bool
  loadMsg : String
  factory : FactoryBeh
  initBeh : Option Exn
  startBeh : Option Exn
  stopBeh : Option Exn
deriving DecidableEq

/-- Contract of the external property store: Ice::createProperties and
Ice::Properties::parseCommandLineOptions (which consumes the options
matching the given key into the view and returns the residual
arguments), abstract over the view representation. -/
structure PropOps (P : Type) where
  createProperties : List String → P
  parseCommandLineOptions : P → String → List String → P × List String

/-- One run environment: the property-store operations, the recognized
option snapshot _options and captured container arguments _argv taken at
construction, the IceBox.Service.* entries discovered from the property
set (service name suffix paired with the raw value, listed in the sorted
key order a std::map enumerates), the IceBox.PrintServicesReady value,
and each service's behavior. -/
structure World (P : Type) where
  ops : PropOps P
  options : List String
  argv : List String
  discovered : List (String × String)
  ready : String
  beh : String → ServiceBeh

/-- Observable events of a run: Service::init invoked with the residual
argument list, Service::start invoked, Service::stop invoked on the
instance with the given identity, a line written to the logger, and the
PrintServicesReady line written to standard output. -/
inductive Event where
  | initCalled (s : String) (args : List String)
  | startCalled (s : String)
  | stopCalled (s : String) (id : Nat)
  | logged (msg : String)
  | printedReady (msg : String)
deriving DecidableEq

/-- Manager state: the _services registry (name to live-instance identity,
sorted by name as a std::map), the event trace so far, and a counter
handing out fresh instance identities. -/
structure St where
  reg : List (String × Nat)
  trace : List Event
  nextId : Nat
deriving DecidableEq

/-- std::map::find on the registry. -/
def mapFind : List (String × Nat) → String → Option Nat
  | [], _ => none
  | (k, v) :: rest, n => if n = k then some v else mapFind rest n

/-- The registry write _services[service] = info: replace the mapped value
when the key is present, otherwise insert at the sorted position
determined by std::string::operator<, modelled as the lexicographic
character-list order. -/
def mapInsert : List (String × Nat) → String → Nat → List (String × Nat)
  | [], n, v => [(n, v)]
  | (k, w) :: rest, n, v =>
    if n.data < k.data then (n, v) :: (k, w) :: rest
    else if n = k then (n, v) :: rest
    else (k, w) :: mapInsert rest n v

/-- std::map::erase of the record found for the key. -/
def mapErase : List (String × Nat) → String → List (String × Nat)
  | [], _ => []
  | (k, v) :: rest, n => if n = k then rest else (k, v) :: mapErase rest n

/-- Models value.find(marker) == 0 on std::string: the marker is a prefix
of the value. -/
def strFind0 (s marker : String) : Bool :=
  marker.data.isPrefixOf s.data

/-- The serviceArgs composition of ServiceManagerI::init (lines 200-219):
three successive index loops pushing, in order, every recognized option
whose key begins with the service marker, every descriptor argument, and
every raw container argument whose key begins with the marker. -/
def composeServiceArgs (options argv : List String) (service : String)
    (args : List String) : List String :=
  let sa1 := options.foldl
    (fun acc o => if strFind0 o ("--" ++ service ++ ".") then acc ++ [o] else acc) []
  let sa2 := args.foldl (fun acc a => acc ++ [a]) sa1
  argv.foldl
    (fun acc o => if strFind0 o ("--" ++ service ++ ".") then acc ++ [o] else acc) sa2

/-- The property-view creation and option consumption of
ServiceManagerI::init (lines 221-226): build the view from serviceArgs,
let it consume Ice options, then the service's options, each time
replacing serviceArgs by the returned residual. -/
def composeConfig {P : Type} (ops : PropOps P) (options argv : List String)
    (service : String) (args : List String) : P × List String :=
  let serviceArgs := composeServiceArgs options argv service args
  let props := ops.createProperties serviceArgs
  let pr1 := ops.parseCommandLineOptions props "Ice" serviceArgs
  ops.parseCommandLineOptions pr1.1 service pr1.2

/-- The Configuration Composer as worded in the specification (section
4.D, steps 1 through 6): start from the empty sequence, append the
matching recognized options from the construction snapshot, append the
descriptor args in order, append the matching raw container arguments,
build a fresh view from the result, and successively let the view consume
Ice options and then the service's options, the final residual becoming
the argument list handed to init. -/
def composerSpec {P : Type} (ops : PropOps P) (recognized rawArgv : List String)
    (service : String) (descrArgs : List String) : P × List String :=
  let marker := "--" ++ service ++ "."
  let step2 := ([] : List String) ++ recognized.filter (fun o => strFind0 o marker)
  let step3 := step2 ++ descrArgs
  let step4 := step3 ++ rawArgv.filter (fun o => strFind0 o marker)
  let view := ops.createProperties step4
  let c1 := ops.parseCommandLineOptions view "Ice" step4
  ops.parseCommandLineOptions c1.1 service c1.2

/-- ServiceManagerI::init (lines 185-288): compose the configuration, load
the entry point, invoke the factory, invoke Service::init (an observable
event carrying the residual arguments), and on full success insert the
record into the registry with a fresh instance identity. The second
component is the exception propagating out of init, if any. -/
def smInit {P : Type} (w : World P) (st : St) (service entryPoint : String)
    (args : List String) : St × Option Exn :=
  let residual := (composeConfig w.ops w.options w.argv service args).2
  let b := w.beh service
  if b.loadOk = false then
    (st, some (.failure ("ServiceManager: unable to load entry point " ++
      quoted entryPoint ++ (if b.loadMsg = "" then "" else ": " ++ b.loadMsg))))
  else
    match b.factory with
    | .throwEx e =>
      (st, some (.failure ("ServiceManager: exception in entry point " ++
        quoted entryPoint ++ ": " ++ iceName e)))
    | .throwForeign =>
      (st, some (.failure ("ServiceManager: unknown exception in entry point " ++
        quoted entryPoint)))
    | .ok =>
      let st1 : St := { st with trace := st.trace ++ [.initCalled service residual] }
      match b.initBeh with
      | none =>
        ({ st1 with reg := mapInsert st1.reg service st.nextId,
                    nextId := st.nextId + 1 }, none)
      | some (.failure r) => (st1, some (.failure r))
      | some (.other nm) =>
        (st1, some (.failure ("ServiceManager: exception while initializing service " ++
          service ++ ": " ++ nm)))

/-- The discovery loop of run (lines 73-113): parse each
IceBox.Service.* value and init the service; a thrown exception aborts
the loop and propagates. -/
def initLoop {P : Type} (w : World P) : List (String × String) → St → St × Option Exn
  | [], st => (st, none)
  | (nm, value) :: rest, st =>
    let pr := parseServiceValue value.data
    match smInit w st nm (String.mk pr.1) (pr.2.map String.mk) with
    | (st1, none) => initLoop w rest st1
    | (st1, some e) => (st1, some e)

/-- The start loop of run (lines 118-135): invoke start on each registry
record in iteration order; a FailureException from start is re-thrown
unchanged, any other Ice exception is wrapped with the start prefix. -/
def startLoop {P : Type} (w : World P) : List (String × Nat) → St → St × Option Exn
  | [], st => (st, none)
  | (nm, _) :: rest, st =>
    let st1 : St := { st with trace := st.trace ++ [.startCalled nm] }
    match (w.beh nm).startBeh with
    | none => startLoop w rest st1
    | some (.failure r) => (st1, some (.failure r))
    | some (.other en) =>
      (st1, some (.failure ("ServiceManager: exception in start for service " ++
        nm ++ ": " ++ en)))

/-- The reason composed by ServiceManagerI::stop when Service::stop throws
(lines 310-312). -/
def stopFailReason (service : String) (e : Exn) : String :=
  "ServiceManager: exception in stop for service " ++ service ++ ": " ++ iceName e

/-- ServiceManagerI::stop (lines 290-320): find the record (none models
the assertion firing on an absent name), erase it from the registry
before invoking Service::stop, and turn an exception from stop into a
thrown FailureException whose reason carries the stop prefix. -/
def smStop {P : Type} (w : World P) (st : St) (service : String) :
    Option (St × Option String) :=
  match mapFind st.reg service with
  | none => none
  | some id =>
    let st1 : St := { st with reg := mapErase st.reg service,
                              trace := st.trace ++ [.stopCalled service id] }
    match (w.beh service).stopBeh with
    | none => some (st1, none)
    | some e => some (st1, some (stopFailReason service e))

/-- The iteration of ServiceManagerI::stopAll (lines 322-338): the
iterator is incremented before stop erases the record it still points at,
so the names visited are exactly the keys present when stopAll began; a
FailureException thrown by stop is written to the logger and the loop
continues. -/
def stopAllGo {P : Type} (w : World P) : List String → St → St
  | [], st => st
  | nm :: rest, st =>
    match smStop w st nm with
    | none => st
    | some (st1, none) => stopAllGo w rest st1
    | some (st1, some r) => stopAllGo w rest { st1 with trace := st1.trace ++ [.logged r] }

/-- ServiceManagerI::stopAll. -/
def stopAll {P : Type} (w : World P) (st : St) : St :=
  stopAllGo w (st.reg.map Prod.fst) st

/-- The initial manager state of a run. -/
def st0 : St := { reg := [], trace := [], nextId := 0 }

/-- The two catch clauses of run (lines 167-180): log the reason (a
FailureException reason verbatim, any other exception behind the
ServiceManager prefix), call stopAll, and return EXIT_FAILURE. -/
def runCatch {P : Type} (w : World P) (st : St) (e : Exn) : St × Nat :=
  let msg := match e with
    | .failure r => r
    | .other nm => "ServiceManager: " ++ nm
  (stopAll w { st with trace := st.trace ++ [.logged msg] }, 1)

/-- ServiceManagerI::run (lines 50-183): discover and init the services,
start them in registry iteration order, optionally print the ready line,
activate the adapter, block in waitForShutdown (both infallible externals
with no observable effect here), then stopAll and return EXIT_SUCCESS;
any exception on the way is handled by the catch clauses. -/
def smRun {P : Type} (w : World P) : St × Nat :=
  match initLoop w w.discovered st0 with
  | (st1, some e) => runCatch w st1 e
  | (st1, none) =>
    match startLoop w st1.reg st1 with
    | (st2, some e) => runCatch w st2 e
    | (st2, none) =>
      let st3 : St := if w.ready = "" then st2
        else { st2 with trace := st2.trace ++ [.printedReady (w.ready ++ " ready")] }
      (stopAll w st3, 0)

theorem foldl_push_filter {α : Type} (p : α → Bool) :
    ∀ (l acc : List α),
      l.foldl (fun acc2 o => if p o then acc2 ++ [o] else acc2) acc = acc ++ l.filter p := by
  intro l
  induction l with
  | nil => intro acc; simp
  | cons a as ih =>
    intro acc
    cases hpa : p a with
    | true =>
      simp only [List.foldl_cons, hpa, if_true, ih, List.filter_cons, List.append_assoc,
        List.singleton_append]
    | false =>
      simp only [List.foldl_cons, hpa, Bool.false_eq_true, if_false, ih, List.filter_cons]

theorem foldl_push_all {α : Type} :
    ∀ (l acc : List α), l.foldl (fun acc2 a => acc2 ++ [a]) acc = acc ++ l := by
  intro l
  induction l with
  | nil => intro acc; simp
  | cons a as ih =>
    intro acc
    simp only [List.foldl_cons, ih, List.append_assoc, List.singleton_append]

/-- C4: for every service, init builds serviceArgs as exactly the
runtime-recognized options carrying the service marker in snapshot order,
then the descriptor args in order, then the raw container arguments
carrying the marker in order; it creates a fresh property view from
serviceArgs, lets it consume the Ice options and then the service's
options, and the argument list recorded at the Service::init event is the
resulting residual: the composition of the source coincides with the
composer steps worded in the specification. -/
theorem c4_composer {P : Type} (ops : PropOps P) (options argv : List String)
    (service ep : String) (args : List String) (w : World P) (st : St) :
    composeServiceArgs options argv service args =
      options.filter (fun o => strFind0 o ("--" ++ service ++ ".")) ++ args ++
        argv.filter (fun o => strFind0 o ("--" ++ service ++ ".")) ∧
    composeConfig ops options argv service args =
      composerSpec ops options argv service args ∧
    ((w.beh service).loadOk = true → (w.beh service).factory = .ok →
      (smInit w st service ep args).1.trace =
        st.trace ++
          [.initCalled service (composeConfig w.ops w.options w.argv service args).2]) := by
  have hargs : composeServiceArgs options argv service args =
      options.filter (fun o => strFind0 o ("--" ++ service ++ ".")) ++ args ++
        argv.filter (fun o => strFind0 o ("--" ++ service ++ ".")) := by
    rw [composeServiceArgs]
    rw [foldl_push_filter, foldl_push_all, foldl_push_filter]
    simp [List.append_assoc]
  refine ⟨hargs, ?_, ?_⟩
  · rw [composeConfig, composerSpec, hargs]
    simp [List.append_assoc]
  · intro hload hfac
    rw [smInit]
    rw [hload]
    simp only [Bool.true_eq_false, if_false]
    rw [hfac]
    cases hinit : (w.beh service).initBeh with
    | none => simp
    | some e => cases e <;> simp

/-- Property-store operations with a trivial view, used to evaluate the
model at concrete inputs: the view records nothing and consumes nothing. -/
def unitOps : PropOps Unit :=
  { createProperties := fun _ => (), parseCommandLineOptions := fun _ _ asx => ((), asx) }

/-- A service behavior in which everything succeeds. -/
def behAllOk : ServiceBeh :=
  { loadOk := true, loadMsg := "", factory := .ok, initBeh := none,
    startBeh := none, stopBeh := none }

/-- Environment for the C4 witness: one recognized option and one raw
container argument carry the marker of service S, another of each does
not. -/
def wC4 : World Unit :=
  { ops := unitOps, options := ["--S.a=1", "--T.b=2"], argv := ["--S.c=3", "-x"],
    discovered := [], ready := "", beh := fun _ => behAllOk }

/-- C4 witness: the composition evaluated on service S with one descriptor
argument. -/
theorem c4_composer_witness :
    composeServiceArgs ["--S.a=1", "--T.b=2"] ["--S.c=3", "-x"] "S" ["x"] =
      ["--S.a=1", "x", "--S.c=3"] ∧
    composeConfig unitOps ["--S.a=1", "--T.b=2"] ["--S.c=3", "-x"] "S" ["x"] =
      composerSpec unitOps ["--S.a=1", "--T.b=2"] ["--S.c=3", "-x"] "S" ["x"] ∧
    (smInit wC4 st0 "S" "pt" ["x"]).1.trace =
      st0.trace ++
        [.initCalled "S" (composeConfig wC4.ops wC4.options wC4.argv "S" ["x"]).2] := by
  have h := c4_composer unitOps ["--S.a=1", "--T.b=2"] ["--S.c=3", "-x"] "S" "pt" ["x"] wC4 st0
  refine ⟨?_, h.2.1, h.2.2 rfl rfl⟩
  rw [h.1]
  decide

/-- The init failure translation as the specification words it: a
pre-existing Failure is re-raised unchanged, any other exception is
wrapped behind the initializing-service prefix carrying its ice_name. -/
def initTranslate (service : String) : Exn → Exn
  | .failure r => .failure r
  | .other nm =>
    .failure ("ServiceManager: exception while initializing service " ++ service ++ ": " ++ nm)

/-- The start failure translation as the specification words it: a
pre-existing Failure is re-raised unchanged, any other exception is
wrapped behind the start prefix carrying its ice_name. -/
def startTranslate (nm : String) : Exn → Exn
  | .failure r => .failure r
  | .other en =>
    .failure ("ServiceManager: exception in start for service " ++ nm ++ ": " ++ en)

/-- Environment for the C2 counterexample: the factory of every service
throws a pre-existing FailureException with reason boom. -/
def wC2 : World Unit :=
  { ops := unitOps, options := [], argv := [], discovered := [], ready := "",
    beh := fun _ => { behAllOk with factory := .throwEx (.failure "boom") } }

/-- C2 (counterexample): a pre-existing Failure thrown by the factory
invocation is not re-raised unchanged; the catch clause around the
factory call catches it as a plain Ice exception and wraps it behind the
entry-point prefix with its ice_name. -/
theorem c2_counterexample :
    (smInit wC2 st0 "S" "pt" []).2 ≠ some (.failure "boom") ∧
    (smInit wC2 st0 "S" "pt" []).2 =
      some (.failure ("ServiceManager: exception in entry point " ++ quoted "pt" ++
        ": IceBox::FailureException")) := by
  constructor
  · decide
  · decide

/-- C2 (amended): within init, a pre-existing Failure raised by
Service::init is re-raised unchanged and any other exception is wrapped
behind the initializing prefix (initTranslate); within startAll a
pre-existing Failure raised by Service::start is re-raised unchanged and
any other exception is wrapped behind the start prefix (startTranslate);
but an exception raised by the factory invocation — a pre-existing
Failure included — is always wrapped behind the entry-point prefix with
its ice_name, and a non-Ice value thrown there becomes the
unknown-exception Failure. -/
theorem c2_translation {P : Type} (w : World P) (st : St) (service ep : String)
    (args : List String) (id : Nat) (rs : List (String × Nat)) :
    ((w.beh service).loadOk = true → (w.beh service).factory = .ok →
      (smInit w st service ep args).2 =
        ((w.beh service).initBeh).map (initTranslate service)) ∧
    (∀ e, (w.beh service).loadOk = true → (w.beh service).factory = .throwEx e →
      (smInit w st service ep args).2 =
        some (.failure ("ServiceManager: exception in entry point " ++ quoted ep ++
          ": " ++ iceName e))) ∧
    ((w.beh service).loadOk = true → (w.beh service).factory = .throwForeign →
      (smInit w st service ep args).2 =
        some (.failure ("ServiceManager: unknown exception in entry point " ++ quoted ep))) ∧
    (∀ e, (w.beh service).startBeh = some e →
      (startLoop w ((service, id) :: rs) st).2 = some (startTranslate service e)) := by
  refine ⟨?_, ?_, ?_, ?_⟩
  · intro hload hfac
    rw [smInit, hload]
    simp only [Bool.true_eq_false, if_false]
    rw [hfac]
    cases hinit : (w.beh service).initBeh with
    | none => simp
    | some e => cases e <;> simp [initTranslate]
  · intro e hload hfac
    rw [smInit, hload]
    simp only [Bool.true_eq_false, if_false]
    rw [hfac]
  · intro hload hfac
    rw [smInit, hload]
    simp only [Bool.true_eq_false, if_false]
    rw [hfac]
  · intro e hstart
    rw [startLoop, hstart]
    cases e <;> simp [startTranslate]

/-- Environment for the C2 witness: Service::init throws a pre-existing
Failure with reason boom, Service::start throws a plain Ice exception
whose ice_name is kaput. -/
def wC2W : World Unit :=
  { ops := unitOps, options := [], argv := [], discovered := [], ready := "",
    beh := fun _ =>
      { behAllOk with initBeh := some (.failure "boom"),
                      startBeh := some (.other "kaput") } }

/-- C2 witness: the translation evaluated on a service whose init throws
a pre-existing Failure (re-raised unchanged) and whose start throws a
plain Ice exception (wrapped behind the start prefix). -/
theorem c2_translation_witness :
    (smInit wC2W st0 "S" "pt" []).2 = some (.failure "boom") ∧
    (startLoop wC2W [("S", 0)] st0).2 =
      some (.failure "ServiceManager: exception in start for service S: kaput") := by
  have h := c2_translation wC2W st0 "S" "pt" [] 0 []
  constructor
  · rw [h.1 rfl rfl]
    decide
  · rw [h.2.2.2 (.other "kaput") rfl]
    decide

/-- The events appended by stopAll while it iterates the given registry:
one stop invocation per record, followed by a logged failure reason
whenever that service's stop throws. -/
def stopTrace {P : Type} (w : World P) : List (String × Nat) → List Event
  | [] => []
  | (nm, id) :: rest =>
    .stopCalled nm id ::
      ((match (w.beh nm).stopBeh with
        | none => []
        | some e => [.logged (stopFailReason nm e)]) ++ stopTrace w rest)

theorem stopAllGo_spec {P : Type} (w : World P) :
    ∀ (rs : List (String × Nat)) (st : St), st.reg = rs →
      stopAllGo w (rs.map Prod.fst) st =
        { reg := [], trace := st.trace ++ stopTrace w rs, nextId := st.nextId } := by
  intro rs
  induction rs with
  | nil =>
    intro st hreg
    cases st
    simp only [List.map_nil, stopAllGo, stopTrace, List.append_nil]
    simp_all
  | cons p rest ih =>
    obtain ⟨nm, id⟩ := p
    intro st hreg
    have hfind : mapFind st.reg nm = some id := by
      rw [hreg, mapFind, if_pos rfl]
    have herase : mapErase st.reg nm = rest := by
      rw [hreg, mapErase, if_pos rfl]
    simp only [List.map_cons, stopAllGo]
    cases hstop : (w.beh nm).stopBeh with
    | none =>
      simp only [smStop, hfind, hstop]
      rw [ih _ herase]
      simp only [stopTrace, hstop, List.nil_append, List.append_assoc, List.cons_append,
        List.singleton_append]
    | some e =>
      simp only [smStop, hfind, hstop]
      rw [ih _ herase]
      simp only [stopTrace, hstop, List.append_assoc, List.cons_append,
        List.singleton_append, List.nil_append]

/-- stopAll empties the registry and appends exactly the stop trace of the
registry it started from. -/
theorem stopAll_spec {P : Type} (w : World P) (st : St) :
    stopAll w st =
      { reg := [], trace := st.trace ++ stopTrace w st.reg, nextId := st.nextId } :=
  stopAllGo_spec w st.reg st rfl

theorem stopCalled_mem_stopTrace {P : Type} (w : World P) :
    ∀ rs, ∀ p ∈ rs, Event.stopCalled p.1 p.2 ∈ stopTrace w rs := by
  intro rs
  induction rs with
  | nil => intro p hp; cases hp
  | cons q rest ih =>
    obtain ⟨nm, id⟩ := q
    intro p hp
    rw [stopTrace]
    cases hp with
    | head => exact List.mem_cons_self _ _
    | tail _ hmem =>
      exact List.mem_cons_of_mem _ (List.mem_append_right _ (ih p hmem))

theorem logged_mem_stopTrace {P : Type} (w : World P) :
    ∀ rs, ∀ p ∈ rs, ∀ e, (w.beh p.1).stopBeh = some e →
      Event.logged (stopFailReason p.1 e) ∈ stopTrace w rs := by
  intro rs
  induction rs with
  | nil => intro p hp; cases hp
  | cons q rest ih =>
    obtain ⟨nm, id⟩ := q
    intro p hp e he
    rw [stopTrace]
    cases hp with
    | head =>
      rw [he]
      exact List.mem_cons_of_mem _ (List.mem_append_left _ (List.mem_singleton.mpr rfl))
    | tail _ hmem =>
      exact List.mem_cons_of_mem _ (List.mem_append_right _ (ih p hmem e he))

/-- C5: for every registry state, after stopAll returns the registry is
empty, even when individual stop calls fail; every record still has stop
invoked on it, and a stop failure is logged (stopAll never re-raises: it
is a total function into states). -/
theorem c5_stopAll_empties {P : Type} (w : World P) (st : St) :
    (stopAll w st).reg = [] ∧
    (∀ p ∈ st.reg, Event.stopCalled p.1 p.2 ∈ (stopAll w st).trace) ∧
    (∀ p ∈ st.reg, ∀ e, (w.beh p.1).stopBeh = some e →
      Event.logged (stopFailReason p.1 e) ∈ (stopAll w st).trace) := by
  rw [stopAll_spec]
  refine ⟨rfl, ?_, ?_⟩
  · intro p hp
    exact List.mem_append_right _ (stopCalled_mem_stopTrace w st.reg p hp)
  · intro p hp e he
    exact List.mem_append_right _ (logged_mem_stopTrace w st.reg p hp e he)

/-- Environment for the stopAll and stop witnesses: the stop of service A
throws an Ice exception named bang, everything else succeeds. -/
def wStops : World Unit :=
  { ops := unitOps, options := [], argv := [], discovered := [], ready := "",
    beh := fun nm => if nm = "A" then { behAllOk with stopBeh := some (.other "bang") }
      else behAllOk }

/-- A registry holding two started services. -/
def stTwo : St := { reg := [("A", 0), ("B", 1)], trace := [], nextId := 2 }

/-- C5 witness: stopAll on a registry of two services whose first stop
fails still stops the second, logs the failure, and leaves the registry
empty. -/
theorem c5_stopAll_empties_witness :
    ("A", 0) ∈ stTwo.reg ∧ ("B", 1) ∈ stTwo.reg ∧
    (stopAll wStops stTwo).reg = [] ∧
    Event.stopCalled "A" 0 ∈ (stopAll wStops stTwo).trace ∧
    Event.stopCalled "B" 1 ∈ (stopAll wStops stTwo).trace ∧
    Event.logged (stopFailReason "A" (.other "bang")) ∈ (stopAll wStops stTwo).trace := by
  have h := c5_stopAll_empties wStops stTwo
  exact ⟨by decide, by decide, h.1,
    h.2.1 ("A", 0) (by decide), h.2.1 ("B", 1) (by decide),
    h.2.2 ("A", 0) (by decide) (.other "bang") (by decide)⟩

theorem mapFind_eq_none_of_not_mem :
    ∀ (reg : List (String × Nat)) (nm : String), nm ∉ reg.map Prod.fst →
      mapFind reg nm = none := by
  intro reg
  induction reg with
  | nil => intro nm _; rfl
  | cons q rest ih =>
    obtain ⟨k, v⟩ := q
    intro nm hnm
    rw [mapFind]
    have hne : ¬nm = k := by
      intro hcon
      exact hnm (by simp [hcon])
    rw [if_neg hne]
    exact ih nm (fun hcon => hnm (by simp [hcon]))

theorem mapFind_mapErase_self :
    ∀ (reg : List (String × Nat)) (nm : String), (reg.map Prod.fst).Nodup →
      mapFind (mapErase reg nm) nm = none := by
  intro reg
  induction reg with
  | nil => intro nm _; rfl
  | cons q rest ih =>
    obtain ⟨k, v⟩ := q
    intro nm hnd
    rw [mapErase]
    by_cases hk : nm = k
    · rw [if_pos hk]
      subst hk
      have hnotin : nm ∉ rest.map Prod.fst := by
        simp only [List.map_cons, List.nodup_cons] at hnd
        exact hnd.1
      exact mapFind_eq_none_of_not_mem rest nm hnotin
    · rw [if_neg hk, mapFind, if_neg hk]
      apply ih
      simp only [List.map_cons, List.nodup_cons] at hnd
      exact hnd.2

/-- C6: for every name present in the registry, stop removes the record
before invoking Service::stop: after stop returns — successfully or
surfacing the StopFailure reason — the record is absent, exactly one stop
invocation on that instance was recorded, and a repeated stop on the new
state finds nothing (the assertion fires) so the same record can never be
stopped twice. -/
theorem c6_stop_removes_before {P : Type} (w : World P) (st : St) (service : String)
    (id : Nat) (hfind : mapFind st.reg service = some id)
    (hnodup : (st.reg.map Prod.fst).Nodup) :
    ∃ st1 res, smStop w st service = some (st1, res) ∧
      mapFind st1.reg service = none ∧
      st1.trace = st.trace ++ [.stopCalled service id] ∧
      ((w.beh service).stopBeh = none → res = none) ∧
      (∀ e, (w.beh service).stopBeh = some e → res = some (stopFailReason service e)) ∧
      smStop w st1 service = none := by
  have hnone : mapFind (mapErase st.reg service) service = none :=
    mapFind_mapErase_self st.reg service hnodup
  cases hstop : (w.beh service).stopBeh with
  | none =>
    refine ⟨⟨mapErase st.reg service, st.trace ++ [.stopCalled service id], st.nextId⟩,
      none, ?_, hnone, rfl, fun _ => rfl, ?_, ?_⟩
    · simp only [smStop, hfind, hstop]
    · intro e he
      exact Option.noConfusion he
    · simp only [smStop, hnone]
  | some e =>
    refine ⟨⟨mapErase st.reg service, st.trace ++ [.stopCalled service id], st.nextId⟩,
      some (stopFailReason service e), ?_, hnone, rfl, ?_, ?_, ?_⟩
    · simp only [smStop, hfind, hstop]
    · intro he
      exact Option.noConfusion he
    · intro e2 he2
      cases he2
      rfl
    · simp only [smStop, hnone]

/-- C6 witness: stopping service A of the two-service registry (its stop
throws) removes its record first, surfaces the StopFailure reason, and a
repeated stop of A finds nothing. -/
theorem c6_stop_removes_before_witness :
    mapFind stTwo.reg "A" = some 0 ∧
    ∃ st1 res, smStop wStops stTwo "A" = some (st1, res) ∧
      mapFind st1.reg "A" = none ∧
      res = some (stopFailReason "A" (.other "bang")) ∧
      smStop wStops st1 "A" = none := by
  obtain ⟨st1, res, hcall, habsent, htr, hok, hfail, hrepeat⟩ :=
    c6_stop_removes_before wStops stTwo "A" 0 (by decide) (by decide)
  exact ⟨by decide, st1, res, hcall, habsent, hfail (.other "bang") (by decide), hrepeat⟩

/-- Strictly ascending names under the character-wise order, which is the
order the keys of a std::map are enumerated in; the IceBox.Service.*
entries of a PropertyDict arrive in this order for every configuration. -/
def strictSortedB : List String → Bool
  | [] => true
  | [_] => true
  | a :: b :: rest => decide (a.data < b.data) && strictSortedB (b :: rest)

theorem strictSortedB_tail {a : String} {l : List String}
    (h : strictSortedB (a :: l) = true) : strictSortedB l = true := by
  cases l with
  | nil => rfl
  | cons b rest =>
    rw [strictSortedB, Bool.and_eq_true] at h
    exact h.2

theorem strictSortedB_head_lt {a : String} :
    ∀ {l : List String}, strictSortedB (a :: l) = true → ∀ x ∈ l, a.data < x.data := by
  intro l
  induction l generalizing a with
  | nil => intro _ x hx; cases hx
  | cons b rest ih =>
    intro h x hx
    rw [strictSortedB, Bool.and_eq_true, decide_eq_true_iff] at h
    cases hx with
    | head => exact h.1
    | tail _ hmem => exact lt_trans h.1 (ih h.2 x hmem)

theorem strictSortedB_nodup : ∀ {l : List String}, strictSortedB l = true → l.Nodup := by
  intro l
  induction l with
  | nil => intro _; exact List.nodup_nil
  | cons a rest ih =>
    intro h
    refine List.nodup_cons.mpr ⟨?_, ih (strictSortedB_tail h)⟩
    intro hmem
    have := strictSortedB_head_lt h a hmem
    exact lt_irrefl _ this

theorem mapInsert_append :
    ∀ (reg : List (String × Nat)) (nm : String) (v : Nat),
      (∀ k ∈ reg.map Prod.fst, k.data < nm.data) →
      mapInsert reg nm v = reg ++ [(nm, v)] := by
  intro reg
  induction reg with
  | nil => intro nm v _; rfl
  | cons q rest ih =>
    obtain ⟨k, w2⟩ := q
    intro nm v hlt
    have hk : k.data < nm.data := hlt k (by simp)
    have hne : ¬nm = k := by
      intro hcon
      subst hcon
      exact lt_irrefl _ hk
    rw [mapInsert, if_neg (lt_asymm hk), if_neg hne]
    rw [ih nm v (fun x hx => hlt x (by simp [hx]))]
    simp

theorem mapFind_mapInsert_self :
    ∀ (reg : List (String × Nat)) (nm : String) (v : Nat),
      mapFind (mapInsert reg nm v) nm = some v := by
  intro reg
  induction reg with
  | nil => intro nm v; simp [mapInsert, mapFind]
  | cons q rest ih =>
    obtain ⟨k, w2⟩ := q
    intro nm v
    rw [mapInsert]
    by_cases hlt : nm.data < k.data
    · rw [if_pos hlt, mapFind, if_pos rfl]
    · rw [if_neg hlt]
      by_cases heq : nm = k
      · rw [if_pos heq, mapFind, if_pos rfl]
      · rw [if_neg heq, mapFind, if_neg heq]
        exact ih nm v

theorem mapFind_some_mem :
    ∀ (reg : List (String × Nat)) (nm : String) (v : Nat),
      mapFind reg nm = some v → nm ∈ reg.map Prod.fst := by
  intro reg
  induction reg with
  | nil => intro nm v h; exact Option.noConfusion h
  | cons q rest ih =>
    obtain ⟨k, w2⟩ := q
    intro nm v h
    rw [mapFind] at h
    by_cases heq : nm = k
    · simp [heq]
    · rw [if_neg heq] at h
      simp only [List.map_cons, List.mem_cons]
      exact Or.inr (ih nm v h)

theorem mapInsert_keys_of_mem :
    ∀ (reg : List (String × Nat)) (nm : String) (v : Nat),
      strictSortedB (reg.map Prod.fst) = true → nm ∈ reg.map Prod.fst →
      (mapInsert reg nm v).map Prod.fst = reg.map Prod.fst := by
  intro reg
  induction reg with
  | nil => intro nm v _ hmem; cases hmem
  | cons q rest ih =>
    obtain ⟨k, w2⟩ := q
    intro nm v hsorted hmem
    rw [mapInsert]
    by_cases heq : nm = k
    · subst heq
      rw [if_neg (lt_irrefl _), if_pos rfl]
      simp
    · have hmem2 : nm ∈ rest.map Prod.fst := by
        simp only [List.map_cons, List.mem_cons] at hmem
        exact hmem.resolve_left heq
      have hk : k.data < nm.data := by
        simp only [List.map_cons] at hsorted
        exact strictSortedB_head_lt hsorted nm hmem2
      rw [if_neg (lt_asymm hk), if_neg heq]
      simp only [List.map_cons]
      rw [ih nm v (by simp only [List.map_cons] at hsorted; exact strictSortedB_tail hsorted) hmem2]

/-- The registry records created by a successful init loop handing out
identities from the given counter. -/
def initedEntries : Nat → List (String × String) → List (String × Nat)
  | _, [] => []
  | i, (nm, _) :: rest => (nm, i) :: initedEntries (i + 1) rest

theorem initedEntries_map_fst :
    ∀ (i : Nat) (ds : List (String × String)),
      (initedEntries i ds).map Prod.fst = ds.map Prod.fst := by
  intro i ds
  induction ds generalizing i with
  | nil => rfl
  | cons d rest ih =>
    obtain ⟨nm, v⟩ := d
    simp [initedEntries, ih]

theorem initedEntries_append :
    ∀ (xs ys : List (String × String)) (i : Nat),
      initedEntries i (xs ++ ys) = initedEntries i xs ++ initedEntries (i + xs.length) ys := by
  intro xs
  induction xs with
  | nil => intro ys i; simp [initedEntries]
  | cons x rest ih =>
    obtain ⟨nm, v⟩ := x
    intro ys i
    show (nm, i) :: initedEntries (i + 1) (rest ++ ys) =
      (nm, i) :: (initedEntries (i + 1) rest ++ initedEntries (i + (rest.length + 1)) ys)
    rw [ih ys (i + 1)]
    have harith : i + 1 + rest.length = i + (rest.length + 1) := by omega
    rw [harith]

theorem mem_initedEntries :
    ∀ (i : Nat) (ds : List (String × String)) (p : String × Nat),
      p ∈ initedEntries i ds → p.1 ∈ ds.map Prod.fst := by
  intro i ds
  induction ds generalizing i with
  | nil => intro p hp; cases hp
  | cons d rest ih =>
    obtain ⟨nm, v⟩ := d
    intro p hp
    rw [initedEntries] at hp
    cases hp with
    | head => simp
    | tail _ hmem =>
      simp only [List.map_cons, List.mem_cons]
      exact Or.inr (ih (i + 1) p hmem)

theorem initedEntries_mem_of_name :
    ∀ (i : Nat) (ds : List (String × String)) (nm : String),
      nm ∈ ds.map Prod.fst → ∃ id, (nm, id) ∈ initedEntries i ds := by
  intro i ds
  induction ds generalizing i with
  | nil => intro nm hnm; cases hnm
  | cons d rest ih =>
    obtain ⟨k, v⟩ := d
    intro nm hnm
    simp only [List.map_cons, List.mem_cons] at hnm
    cases hnm with
    | inl heq =>
      subst heq
      exact ⟨i, by rw [initedEntries]; exact List.mem_cons_self _ _⟩
    | inr hmem =>
      obtain ⟨id, hid⟩ := ih (i + 1) nm hmem
      exact ⟨id, by rw [initedEntries]; exact List.mem_cons_of_mem _ hid⟩

/-- All-succeeding load, factory and init behavior for a service. -/
def initOk {P : Type} (w : World P) (nm : String) : Prop :=
  (w.beh nm).loadOk = true ∧ (w.beh nm).factory = .ok ∧ (w.beh nm).initBeh = none

instance {P : Type} (w : World P) (nm : String) : Decidable (initOk w nm) :=
  inferInstanceAs (Decidable ((w.beh nm).loadOk = true ∧
    (w.beh nm).factory = .ok ∧ (w.beh nm).initBeh = none))

/-- Succeeding init reduced: the record is inserted with a fresh identity
and the Service::init event carries the composed residual arguments. -/
theorem smInit_ok {P : Type} (w : World P) (st : St) (nm ep : String)
    (args : List String) (h : initOk w nm) :
    smInit w st nm ep args =
      ({ reg := mapInsert st.reg nm st.nextId,
         trace := st.trace ++
           [.initCalled nm (composeConfig w.ops w.options w.argv nm args).2],
         nextId := st.nextId + 1 }, none) := by
  obtain ⟨h1, h2, h3⟩ := h
  rw [smInit, h1]
  simp only [Bool.true_eq_false, if_false]
  rw [h2, h3]

def isInitEvent : Event → Bool
  | .initCalled _ _ => true
  | _ => false

theorem initLoop_cons_ok {P : Type} (w : World P) (nm value : String)
    (rest : List (String × String)) (st st1 : St)
    (h : smInit w st nm (String.mk (parseServiceValue value.data).1)
      ((parseServiceValue value.data).2.map String.mk) = (st1, none)) :
    initLoop w ((nm, value) :: rest) st = initLoop w rest st1 := by
  rw [initLoop, h]

theorem initLoop_ok {P : Type} (w : World P) :
    ∀ (ds : List (String × String)) (st : St),
      (∀ p ∈ ds, initOk w p.1) →
      (∀ k ∈ st.reg.map Prod.fst, ∀ n ∈ ds.map Prod.fst, k.data < n.data) →
      strictSortedB (ds.map Prod.fst) = true →
      ∃ tr, initLoop w ds st =
        ({ reg := st.reg ++ initedEntries st.nextId ds,
           trace := st.trace ++ tr,
           nextId := st.nextId + ds.length }, none) ∧
        ∀ e ∈ tr, isInitEvent e = true := by
  intro ds
  induction ds with
  | nil =>
    intro st _ _ _
    refine ⟨[], ?_, fun e he => absurd he (List.not_mem_nil e)⟩
    simp [initLoop, initedEntries]
  | cons d rest ih =>
    obtain ⟨nm, value⟩ := d
    intro st hok hgt hsorted
    have hokh : initOk w nm := hok (nm, value) (by simp)
    have hnmlt : ∀ k ∈ st.reg.map Prod.fst, k.data < nm.data := by
      intro k hk
      exact hgt k hk nm (by simp)
    rw [initLoop_cons_ok w nm value rest st _ (smInit_ok w st nm
      (String.mk (parseServiceValue value.data).1)
      ((parseServiceValue value.data).2.map String.mk) hokh)]
    have hins : mapInsert st.reg nm st.nextId = st.reg ++ [(nm, st.nextId)] :=
      mapInsert_append st.reg nm st.nextId hnmlt
    have hsorted2 : strictSortedB (rest.map Prod.fst) = true := by
      simp only [List.map_cons] at hsorted
      exact strictSortedB_tail hsorted
    have hgt2 : ∀ k ∈ (st.reg ++ [(nm, st.nextId)]).map Prod.fst,
        ∀ n ∈ rest.map Prod.fst, k.data < n.data := by
      intro k hk n hn
      rw [List.map_append] at hk
      rcases List.mem_append.mp hk with hk2 | hk2
      · exact hgt k hk2 n (by simp [hn])
      · simp only [List.map_cons, List.map_nil, List.mem_singleton] at hk2
        subst hk2
        simp only [List.map_cons] at hsorted
        exact strictSortedB_head_lt hsorted n hn
    obtain ⟨tr2, htr2, hinit2⟩ := ih
      { reg := mapInsert st.reg nm st.nextId,
        trace := st.trace ++
          [.initCalled nm (composeConfig w.ops w.options w.argv nm
            ((parseServiceValue value.data).2.map String.mk)).2],
        nextId := st.nextId + 1 }
      (fun p hp => hok p (List.mem_cons_of_mem _ hp))
      (by simpa [hins] using hgt2) hsorted2
    refine ⟨.initCalled nm (composeConfig w.ops w.options w.argv nm
      ((parseServiceValue value.data).2.map String.mk)).2 :: tr2, ?_, ?_⟩
    · rw [htr2]
      have harith : st.nextId + 1 + rest.length = st.nextId + (rest.length + 1) := by omega
      simp only [Prod.mk.injEq, St.mk.injEq, hins, initedEntries, List.append_assoc,
        List.cons_append, List.singleton_append, List.length_cons, harith, and_true,
        true_and]
      simp
    · intro e he
      cases he with
      | head => rfl
      | tail _ hmem => exact hinit2 e hmem

theorem startLoop_ok {P : Type} (w : World P) :
    ∀ (rs : List (String × Nat)) (st : St),
      (∀ p ∈ rs, (w.beh p.1).startBeh = none) →
      startLoop w rs st =
        ({ st with trace := st.trace ++ rs.map (fun p => Event.startCalled p.1) }, none) := by
  intro rs
  induction rs with
  | nil => intro st _; simp [startLoop]
  | cons q rest ih =>
    obtain ⟨nm, id⟩ := q
    intro st hok
    have hh : (w.beh nm).startBeh = none := hok (nm, id) (by simp)
    rw [startLoop, hh]
    rw [ih _ (fun p hp => hok p (List.mem_cons_of_mem _ hp))]
    simp only [Prod.mk.injEq, St.mk.injEq, List.map_cons, List.append_assoc,
      List.cons_append, List.singleton_append, and_true, true_and]
    simp

theorem startLoop_fail {P : Type} (w : World P) (bad : String) (e : Exn)
    (hbad : (w.beh bad).startBeh = some e) :
    ∀ (pre : List (String × Nat)) (idb : Nat) (post : List (String × Nat)) (st : St),
      (∀ p ∈ pre, (w.beh p.1).startBeh = none) →
      startLoop w (pre ++ (bad, idb) :: post) st =
        ({ st with trace := st.trace ++ pre.map (fun p => Event.startCalled p.1) ++
            [.startCalled bad] },
         some (startTranslate bad e)) := by
  intro pre
  induction pre with
  | nil =>
    intro idb post st _
    simp only [List.nil_append, List.map_nil, List.append_nil]
    rw [startLoop, hbad]
    cases e with
    | failure r => simp [startTranslate]
    | other en => simp [startTranslate]
  | cons q rest ih =>
    obtain ⟨nm, id⟩ := q
    intro idb post st hok
    have hh : (w.beh nm).startBeh = none := hok (nm, id) (by simp)
    rw [List.cons_append, startLoop, hh]
    rw [ih idb post _ (fun p hp => hok p (List.mem_cons_of_mem _ hp))]
    simp only [Prod.mk.injEq, St.mk.injEq, List.map_cons, List.append_assoc,
      List.cons_append, List.singleton_append, and_true, true_and]
    simp

/-- The service name of a start event. -/
def startName : Event → Option String
  | .startCalled nm => some nm
  | _ => none

/-- Recognizes a stop invocation of the given service. -/
def isStopFor (nm : String) : Event → Bool
  | .stopCalled m _ => m == nm
  | _ => false

/-- Number of stop invocations of the given service in a trace. -/
def countStop (nm : String) (tr : List Event) : Nat :=
  (tr.filter (isStopFor nm)).length

theorem countStop_append (nm : String) (a b : List Event) :
    countStop nm (a ++ b) = countStop nm a + countStop nm b := by
  simp [countStop, List.filter_append]

theorem countStop_cons (nm : String) (e : Event) (tr : List Event) :
    countStop nm (e :: tr) = (if isStopFor nm e then 1 else 0) + countStop nm tr := by
  by_cases h : isStopFor nm e = true
  · simp [countStop, List.filter_cons, h]
    omega
  · simp only [Bool.not_eq_true] at h
    simp [countStop, List.filter_cons, h]

theorem countStop_of_all_false {nm : String} :
    ∀ {tr : List Event}, (∀ e ∈ tr, isStopFor nm e = false) → countStop nm tr = 0 := by
  intro tr
  induction tr with
  | nil => intro _; rfl
  | cons a as ih =>
    intro h
    rw [countStop_cons, h a (by simp)]
    simp only [Bool.false_eq_true, if_false, Nat.zero_add]
    exact ih (fun e he => h e (List.mem_cons_of_mem _ he))

theorem countStop_of_init {nm : String} {tr : List Event}
    (h : ∀ e ∈ tr, isInitEvent e = true) : countStop nm tr = 0 := by
  apply countStop_of_all_false
  intro e he
  have := h e he
  cases e <;> simp_all [isInitEvent, isStopFor]

theorem countStop_map_start (nm : String) (rs : List (String × Nat)) :
    countStop nm (rs.map (fun p => Event.startCalled p.1)) = 0 := by
  apply countStop_of_all_false
  intro e he
  obtain ⟨q, _, hqe⟩ := List.mem_map.mp he
  rw [← hqe]
  rfl

theorem countStop_stopTrace {P : Type} (w : World P) (nm : String) :
    ∀ rs : List (String × Nat),
      countStop nm (stopTrace w rs) = (rs.map Prod.fst).count nm := by
  intro rs
  induction rs with
  | nil => rfl
  | cons q rest ih =>
    obtain ⟨m, id⟩ := q
    rw [stopTrace, countStop_cons]
    have hbranch : countStop nm (stopTrace w rest) + (if m == nm then 1 else 0) =
        ((m :: rest.map Prod.fst).count nm) := by
      rw [List.count_cons, ih]
    cases hstop : (w.beh m).stopBeh with
    | none =>
      simp only [List.nil_append, List.map_cons]
      rw [ih, List.count_cons]
      have : isStopFor nm (Event.stopCalled m id) = (m == nm) := rfl
      rw [this]
      by_cases hm : (m == nm) = true
      · simp [hm]
        omega
      · simp only [Bool.not_eq_true] at hm
        simp [hm]
    | some e =>
      rw [countStop_append]
      have hlog : countStop nm [Event.logged (stopFailReason m e)] = 0 := rfl
      rw [hlog, ih]
      simp only [List.map_cons]
      rw [List.count_cons]
      have : isStopFor nm (Event.stopCalled m id) = (m == nm) := rfl
      rw [this]
      by_cases hm : (m == nm) = true
      · simp [hm]
        omega
      · simp only [Bool.not_eq_true] at hm
        simp [hm]

theorem filterMap_start_of_init :
    ∀ {tr : List Event}, (∀ e ∈ tr, isInitEvent e = true) →
      tr.filterMap startName = [] := by
  intro tr
  induction tr with
  | nil => intro _; rfl
  | cons a as ih =>
    intro h
    have ha := h a (by simp)
    cases a with
    | initCalled s args =>
      rw [List.filterMap_cons]
      have : startName (Event.initCalled s args) = none := rfl
      rw [this]
      exact ih (fun e he => h e (List.mem_cons_of_mem _ he))
    | startCalled s => simp [isInitEvent] at ha
    | stopCalled s id => simp [isInitEvent] at ha
    | logged m => simp [isInitEvent] at ha
    | printedReady m => simp [isInitEvent] at ha

theorem filterMap_start_stopTrace {P : Type} (w : World P) :
    ∀ rs : List (String × Nat), (stopTrace w rs).filterMap startName = [] := by
  intro rs
  induction rs with
  | nil => rfl
  | cons q rest ih =>
    obtain ⟨m, id⟩ := q
    rw [stopTrace, List.filterMap_cons]
    have : startName (Event.stopCalled m id) = none := rfl
    rw [this]
    cases hstop : (w.beh m).stopBeh with
    | none => simpa using ih
    | some e =>
      rw [List.filterMap_append]
      have hsing : (([Event.logged (stopFailReason m e)]).filterMap startName) = [] := rfl
      rw [hsing, ih]
      rfl

theorem filterMap_start_map (rs : List (String × Nat)) :
    (rs.map (fun p => Event.startCalled p.1)).filterMap startName = rs.map Prod.fst := by
  induction rs with
  | nil => rfl
  | cons q rest ih =>
    simp only [List.map_cons, List.filterMap_cons]
    have : startName (Event.startCalled q.1) = some q.1 := rfl
    rw [this, ih]

theorem startCalled_not_mem_stopTrace {P : Type} (w : World P) (x : String) :
    ∀ rs : List (String × Nat), Event.startCalled x ∉ stopTrace w rs := by
  intro rs
  induction rs with
  | nil => intro h; cases h
  | cons q rest ih =>
    obtain ⟨m, id⟩ := q
    intro h
    rw [stopTrace] at h
    cases h with
    | tail _ hmem =>
      rcases List.mem_append.mp hmem with hmem2 | hmem2
      · cases hstop : (w.beh m).stopBeh with
        | none => rw [hstop] at hmem2; cases hmem2
        | some e =>
          rw [hstop] at hmem2
          rcases List.mem_singleton.mp hmem2 with hcon
          cases hcon
      · exact ih hmem2

theorem startCalled_not_mem_of_init {tr : List Event}
    (h : ∀ e ∈ tr, isInitEvent e = true) (x : String) :
    Event.startCalled x ∉ tr := by
  intro hmem
  have := h _ hmem
  simp [isInitEvent] at this

theorem smRun_initLoop_some {P : Type} (w : World P) (st1 : St) (e : Exn)
    (h : initLoop w w.discovered st0 = (st1, some e)) : smRun w = runCatch w st1 e := by
  rw [smRun, h]

theorem smRun_eq_of_initLoop_none {P : Type} (w : World P) (st1 : St)
    (h : initLoop w w.discovered st0 = (st1, none)) :
    smRun w =
      (match startLoop w st1.reg st1 with
        | (st2, some e) => runCatch w st2 e
        | (st2, none) =>
          (stopAll w (if w.ready = "" then st2
            else { st2 with trace := st2.trace ++ [.printedReady (w.ready ++ " ready")] }),
           0)) := by
  rw [smRun, h]

theorem smRun_startLoop_some {P : Type} (w : World P) (st1 st2 : St) (e : Exn)
    (h1 : initLoop w w.discovered st0 = (st1, none))
    (h2 : startLoop w st1.reg st1 = (st2, some e)) :
    smRun w = runCatch w st2 e := by
  rw [smRun_eq_of_initLoop_none w st1 h1, h2]

theorem smRun_startLoop_none {P : Type} (w : World P) (st1 st2 : St)
    (h1 : initLoop w w.discovered st0 = (st1, none))
    (h2 : startLoop w st1.reg st1 = (st2, none)) :
    smRun w =
      (stopAll w (if w.ready = "" then st2
        else { st2 with trace := st2.trace ++ [.printedReady (w.ready ++ " ready")] }),
       0) := by
  rw [smRun_eq_of_initLoop_none w st1 h1, h2]

/-- The shape of a fully successful run: the trace is the init events,
then one start event per discovered service in discovery order, then the
optional ready line, then the stop trace of the full registry; the exit
status is success and the registry ends empty. -/
theorem smRun_success {P : Type} (w : World P)
    (hok : ∀ p ∈ w.discovered, initOk w p.1)
    (hsorted : strictSortedB (w.discovered.map Prod.fst) = true)
    (hstart : ∀ p ∈ w.discovered, (w.beh p.1).startBeh = none) :
    ∃ tr, (∀ e ∈ tr, isInitEvent e = true) ∧
      smRun w =
        ({ reg := [],
           trace := tr ++
             (initedEntries 0 w.discovered).map (fun p => Event.startCalled p.1) ++
             (if w.ready = "" then [] else [.printedReady (w.ready ++ " ready")]) ++
             stopTrace w (initedEntries 0 w.discovered),
           nextId := w.discovered.length }, 0) := by
  obtain ⟨tr, htr, hinitev⟩ := initLoop_ok w w.discovered st0 hok
    (by intro k hk n hn; simp [st0] at hk) hsorted
  have h1 : initLoop w w.discovered st0 =
      (⟨initedEntries 0 w.discovered, tr, w.discovered.length⟩, none) := by
    rw [htr]
    simp [st0]
  have hstartE : ∀ p ∈ initedEntries 0 w.discovered, (w.beh p.1).startBeh = none := by
    intro p hp
    have hname := mem_initedEntries 0 w.discovered p hp
    obtain ⟨q, hq, hqe⟩ := List.mem_map.mp hname
    rw [← hqe]
    exact hstart q hq
  have h2 := startLoop_ok w (initedEntries 0 w.discovered)
    ⟨initedEntries 0 w.discovered, tr, w.discovered.length⟩ hstartE
  refine ⟨tr, hinitev, ?_⟩
  rw [smRun_startLoop_none w _ _ h1 h2]
  by_cases hready : w.ready = ""
  · rw [if_pos hready, stopAll_spec]
    simp [hready, List.append_assoc]
  · rw [if_neg hready, stopAll_spec]
    simp [hready, List.append_assoc]

/-- C7: startAll invokes start on the services in the order they were
discovered from the IceBox.Service.* enumeration and initialized:
after the init loop the registry key sequence equals the discovery
sequence (iteration order equals insertion order, both being the sorted
key order of a std::map), and in a successful run the start events appear
in exactly that order. The sortedness hypothesis holds for every
configuration because getPropertiesForPrefix enumerates a std::map. -/
theorem c7_start_order {P : Type} (w : World P)
    (hok : ∀ p ∈ w.discovered, initOk w p.1)
    (hsorted : strictSortedB (w.discovered.map Prod.fst) = true)
    (hstart : ∀ p ∈ w.discovered, (w.beh p.1).startBeh = none) :
    (∃ st1, initLoop w w.discovered st0 = (st1, none) ∧
      st1.reg.map Prod.fst = w.discovered.map Prod.fst) ∧
    (smRun w).1.trace.filterMap startName = w.discovered.map Prod.fst := by
  constructor
  · obtain ⟨tr, htr, _⟩ := initLoop_ok w w.discovered st0 hok
      (by intro k hk n hn; simp [st0] at hk) hsorted
    refine ⟨_, htr, ?_⟩
    simp [st0, initedEntries_map_fst]
  · obtain ⟨tr, hinitev, hrun⟩ := smRun_success w hok hsorted hstart
    rw [hrun]
    simp only [List.filterMap_append]
    rw [filterMap_start_of_init hinitev, filterMap_start_map,
      filterMap_start_stopTrace, initedEntries_map_fst]
    have hready : (if w.ready = "" then ([] : List Event)
        else [.printedReady (w.ready ++ " ready")]).filterMap startName = [] := by
      by_cases h : w.ready = ""
      · rw [if_pos h]; rfl
      · rw [if_neg h]; rfl
    rw [hready]
    simp

/-- Environment for the C7 witness: two services, everything succeeds. -/
def wOk : World Unit :=
  { ops := unitOps, options := [], argv := [],
    discovered := [("Alpha", "libA:create"), ("Beta", "libB:create --Beta.x=1")],
    ready := "MyBundle", beh := fun _ => behAllOk }

/-- C7 witness: the start events of the two-service run appear in
discovery order. -/
theorem c7_start_order_witness :
    (smRun wOk).1.trace.filterMap startName = ["Alpha", "Beta"] := by
  have h := c7_start_order wOk (by decide) (by decide) (by decide)
  exact h.2

/-- C8: when startup and waitForShutdown complete, run returns success
even when stopAll meets failures from individual services during the
final shutdown: every service still has stop invoked, each failing stop
has its Failure reason logged, and the exit status is success. -/
theorem c8_stop_failures {P : Type} (w : World P)
    (hok : ∀ p ∈ w.discovered, initOk w p.1)
    (hsorted : strictSortedB (w.discovered.map Prod.fst) = true)
    (hstart : ∀ p ∈ w.discovered, (w.beh p.1).startBeh = none) :
    (smRun w).2 = 0 ∧
    (∀ nm ∈ w.discovered.map Prod.fst, ∃ id, Event.stopCalled nm id ∈ (smRun w).1.trace) ∧
    (∀ nm ∈ w.discovered.map Prod.fst, ∀ e, (w.beh nm).stopBeh = some e →
      Event.logged (stopFailReason nm e) ∈ (smRun w).1.trace) := by
  obtain ⟨tr, hinitev, hrun⟩ := smRun_success w hok hsorted hstart
  rw [hrun]
  refine ⟨rfl, ?_, ?_⟩
  · intro nm hnm
    obtain ⟨id, hid⟩ := initedEntries_mem_of_name 0 w.discovered nm hnm
    exact ⟨id, List.mem_append_right _
      (stopCalled_mem_stopTrace w (initedEntries 0 w.discovered) (nm, id) hid)⟩
  · intro nm hnm e he
    obtain ⟨id, hid⟩ := initedEntries_mem_of_name 0 w.discovered nm hnm
    exact List.mem_append_right _
      (logged_mem_stopTrace w (initedEntries 0 w.discovered) (nm, id) hid e he)

/-- Environment for the C8 witness: two services, the stop of the first
throws. -/
def wC8 : World Unit :=
  { ops := unitOps, options := [], argv := [],
    discovered := [("Alpha", "a:go"), ("Beta", "b:go")], ready := "",
    beh := fun nm => if nm = "Alpha" then { behAllOk with stopBeh := some (.other "bang") }
      else behAllOk }

/-- C8 witness: the two-service run with a failing first stop still exits
with success and logs the stop failure. -/
theorem c8_stop_failures_witness :
    (smRun wC8).2 = 0 ∧
    Event.logged (stopFailReason "Alpha" (.other "bang")) ∈ (smRun wC8).1.trace := by
  have h := c8_stop_failures wC8 (by decide) (by decide) (by decide)
  exact ⟨h.1, h.2.2 "Alpha" (by decide) (.other "bang") (by decide)⟩

/-- Environment for the C1 counterexample and witness: three services in
discovery order A, B, C; the start of B throws, everything else
succeeds. -/
def wC1 : World Unit :=
  { ops := unitOps, options := [], argv := [],
    discovered := [("A", "a:create"), ("B", "b:create"), ("C", "c:create")], ready := "",
    beh := fun nm => if nm = "B" then { behAllOk with startBeh := some (.other "boom") }
      else behAllOk }

/-- C1 (counterexample): with three services and the second failing to
start, run returns failure and the third service is never started, but
stop IS invoked on it (it was initialized, so the catch-clause stopAll
stops it) — the claim asserts that for services at or after the failing
index stop is not invoked. -/
theorem c1_counterexample :
    (smRun wC1).2 = 1 ∧
    Event.startCalled "C" ∉ (smRun wC1).1.trace ∧
    Event.stopCalled "C" 2 ∈ (smRun wC1).1.trace := by
  refine ⟨by decide, by decide, by decide⟩

/-- C1 (amended): if start fails for the k-th service in start order
during run, then run returns failure, stop is invoked exactly once on
EVERY discovered service — the services before the failing one, the
failing one, and the ones at or after it that were initialized but never
started — start was invoked exactly on the services up to and including
the failing one, and no later service is ever started. -/
theorem c1_start_failure {P : Type} (w : World P) (pre post : List (String × String))
    (bad badVal : String) (e : Exn)
    (hdisc : w.discovered = pre ++ (bad, badVal) :: post)
    (hok : ∀ p ∈ w.discovered, initOk w p.1)
    (hsorted : strictSortedB (w.discovered.map Prod.fst) = true)
    (hpre : ∀ p ∈ pre, (w.beh p.1).startBeh = none)
    (hbad : (w.beh bad).startBeh = some e) :
    (smRun w).2 = 1 ∧
    (∀ nm ∈ w.discovered.map Prod.fst, countStop nm (smRun w).1.trace = 1) ∧
    (∀ p ∈ pre, Event.startCalled p.1 ∈ (smRun w).1.trace) ∧
    Event.startCalled bad ∈ (smRun w).1.trace ∧
    (∀ p ∈ post, Event.startCalled p.1 ∉ (smRun w).1.trace) := by
  obtain ⟨tr, htr, hinitev⟩ := initLoop_ok w w.discovered st0 hok
    (by intro k hk n hn; simp [st0] at hk) hsorted
  have h1 : initLoop w w.discovered st0 =
      (⟨initedEntries 0 w.discovered, tr, w.discovered.length⟩, none) := by
    rw [htr]
    simp [st0]
  have hsplit : initedEntries 0 w.discovered =
      initedEntries 0 pre ++ (bad, pre.length) :: initedEntries (pre.length + 1) post := by
    rw [hdisc, initedEntries_append]
    simp [initedEntries]
  have hpreE : ∀ p ∈ initedEntries 0 pre, (w.beh p.1).startBeh = none := by
    intro p hp
    obtain ⟨q, hq, hqe⟩ := List.mem_map.mp (mem_initedEntries 0 pre p hp)
    rw [← hqe]
    exact hpre q hq
  have h2 := startLoop_fail w bad e hbad (initedEntries 0 pre) pre.length
    (initedEntries (pre.length + 1) post)
    ⟨initedEntries 0 w.discovered, tr, w.discovered.length⟩ hpreE
  have h2A : startLoop w
      ((⟨initedEntries 0 w.discovered, tr, w.discovered.length⟩ : St).reg)
      ⟨initedEntries 0 w.discovered, tr, w.discovered.length⟩ =
      (⟨initedEntries 0 w.discovered,
        tr ++ (initedEntries 0 pre).map (fun p => Event.startCalled p.1) ++
          [.startCalled bad],
        w.discovered.length⟩, some (startTranslate bad e)) := by
    show startLoop w (initedEntries 0 w.discovered)
      ⟨initedEntries 0 w.discovered, tr, w.discovered.length⟩ = _
    rw [hsplit] at h2 ⊢
    exact h2
  obtain ⟨r, hr⟩ : ∃ r, startTranslate bad e = .failure r := by
    cases e with
    | failure r2 => exact ⟨r2, rfl⟩
    | other en => exact ⟨_, rfl⟩
  have hrun : smRun w =
      ({ reg := [],
         trace := tr ++ (initedEntries 0 pre).map (fun p => Event.startCalled p.1) ++
           [.startCalled bad] ++ [.logged r] ++ stopTrace w (initedEntries 0 w.discovered),
         nextId := w.discovered.length }, 1) := by
    rw [smRun_startLoop_some w _ _ _ h1 h2A, hr]
    have hrc : runCatch w
        ⟨initedEntries 0 w.discovered,
          tr ++ (initedEntries 0 pre).map (fun p => Event.startCalled p.1) ++
            [.startCalled bad],
          w.discovered.length⟩ (.failure r) =
        (stopAll w
          ⟨initedEntries 0 w.discovered,
            tr ++ (initedEntries 0 pre).map (fun p => Event.startCalled p.1) ++
              [.startCalled bad] ++ [.logged r],
            w.discovered.length⟩, 1) := rfl
    rw [hrc, stopAll_spec]
  have hnames : w.discovered.map Prod.fst =
      pre.map Prod.fst ++ bad :: post.map Prod.fst := by
    rw [hdisc]
    simp
  have hnd : (pre.map Prod.fst ++ bad :: post.map Prod.fst).Nodup := by
    rw [← hnames]
    exact strictSortedB_nodup hsorted
  rw [hrun]
  refine ⟨rfl, ?_, ?_, ?_, ?_⟩
  · intro nm hnm
    show countStop nm (tr ++ (initedEntries 0 pre).map (fun p => Event.startCalled p.1) ++
      [.startCalled bad] ++ [.logged r] ++ stopTrace w (initedEntries 0 w.discovered)) = 1
    rw [countStop_append, countStop_append, countStop_append, countStop_append]
    rw [countStop_of_init hinitev, countStop_map_start]
    have hb1 : countStop nm [Event.startCalled bad] = 0 := rfl
    have hb2 : countStop nm [Event.logged r] = 0 := rfl
    rw [hb1, hb2, countStop_stopTrace, initedEntries_map_fst]
    have hcount : (w.discovered.map Prod.fst).count nm = 1 :=
      List.count_eq_one_of_mem (strictSortedB_nodup hsorted) hnm
    rw [hcount]
  · intro p hp
    have hmemE : ∃ id, (p.1, id) ∈ initedEntries 0 pre :=
      initedEntries_mem_of_name 0 pre p.1 (List.mem_map_of_mem Prod.fst hp)
    obtain ⟨id, hid⟩ := hmemE
    have hmem : Event.startCalled p.1 ∈
        (initedEntries 0 pre).map (fun q => Event.startCalled q.1) :=
      List.mem_map.mpr ⟨(p.1, id), hid, rfl⟩
    exact List.mem_append_left _ (List.mem_append_left _ (List.mem_append_left _
      (List.mem_append_right _ hmem)))
  · exact List.mem_append_left _ (List.mem_append_left _ (List.mem_append_right _
      (List.mem_singleton.mpr rfl)))
  · intro p hp hmem
    have hpost : p.1 ∈ post.map Prod.fst := List.mem_map_of_mem Prod.fst hp
    have hbadnotin : bad ∉ post.map Prod.fst := by
      have := (List.nodup_append.mp hnd).2.1
      exact (List.nodup_cons.mp this).1
    have hdisj : ∀ a, a ∈ pre.map Prod.fst → a ∈ bad :: post.map Prod.fst → False := by
      have := (List.nodup_append.mp hnd).2.2
      intro a ha hb
      exact this ha hb
    have hne_bad : p.1 ≠ bad := by
      intro hcon
      rw [hcon] at hpost
      exact hbadnotin hpost
    have hnot_pre : p.1 ∉ pre.map Prod.fst := by
      intro hcon
      exact hdisj p.1 hcon (List.mem_cons_of_mem _ hpost)
    rcases List.mem_append.mp hmem with hm | hm
    · rcases List.mem_append.mp hm with hm2 | hm2
      · rcases List.mem_append.mp hm2 with hm3 | hm3
        · rcases List.mem_append.mp hm3 with hm4 | hm4
          · exact startCalled_not_mem_of_init hinitev p.1 hm4
          · obtain ⟨q, hq, hqe⟩ := List.mem_map.mp hm4
            have : q.1 = p.1 := by
              injection hqe
            rw [← this] at hnot_pre
            exact hnot_pre (mem_initedEntries 0 pre q hq)
        · have : p.1 = bad := by
            have := List.mem_singleton.mp hm3
            injection this
          exact hne_bad this
      · have := List.mem_singleton.mp hm2
        exact Event.noConfusion this
    · exact startCalled_not_mem_stopTrace w p.1 _ hm

/-- C1 witness: the amended law evaluated on the three-service world of
the counterexample (start of B fails): run exits with failure, C is
stopped exactly once, A was started. -/
theorem c1_start_failure_witness :
    (smRun wC1).2 = 1 ∧
    countStop "C" (smRun wC1).1.trace = 1 ∧
    countStop "A" (smRun wC1).1.trace = 1 ∧
    Event.startCalled "A" ∈ (smRun wC1).1.trace ∧
    Event.startCalled "B" ∈ (smRun wC1).1.trace := by
  have h := c1_start_failure wC1 [("A", "a:create")] [("C", "c:create")] "B" "b:create"
    (.other "boom") (by decide) (by decide) (by decide) (by decide) (by decide)
  exact ⟨h.1, h.2.1 "C" (by decide), h.2.1 "A" (by decide),
    h.2.2.1 ("A", "a:create") (by decide), h.2.2.2.1⟩

/-- C9: when init is invoked with a service name already present in the
registry and the new initialization succeeds, the existing record is
silently overwritten: no failure is surfaced, the name now maps to the
fresh instance, the registry keys are unchanged, and the only event
recorded is the new Service::init — stop is never invoked on the
previous instance, which is simply released. -/
theorem c9_reinit_overwrites {P : Type} (w : World P) (st : St) (service ep : String)
    (args : List String) (oldId : Nat)
    (hfind : mapFind st.reg service = some oldId)
    (hsorted : strictSortedB (st.reg.map Prod.fst) = true)
    (hfresh : oldId ≠ st.nextId)
    (hok : initOk w service) :
    (smInit w st service ep args).2 = none ∧
    mapFind (smInit w st service ep args).1.reg service = some st.nextId ∧
    st.nextId ≠ oldId ∧
    (smInit w st service ep args).1.reg.map Prod.fst = st.reg.map Prod.fst ∧
    (smInit w st service ep args).1.trace =
      st.trace ++
        [.initCalled service (composeConfig w.ops w.options w.argv service args).2] := by
  rw [smInit_ok w st service ep args hok]
  refine ⟨rfl, ?_, fun hcon => hfresh hcon.symm, ?_, rfl⟩
  · exact mapFind_mapInsert_self st.reg service st.nextId
  · exact mapInsert_keys_of_mem st.reg service st.nextId hsorted
      (mapFind_some_mem st.reg service oldId hfind)

/-- Environment for the C9 witness: no configured services, every
behavior succeeds; init is driven directly at a registry that already
holds the name. -/
def wC9 : World Unit :=
  { ops := unitOps, options := [], argv := [], discovered := [], ready := "",
    beh := fun _ => behAllOk }

/-- C9 witness: re-initializing service A over the two-service registry
surfaces no failure, rebinds A to the fresh instance identity, and keeps
the registry keys. -/
theorem c9_reinit_overwrites_witness :
    mapFind stTwo.reg "A" = some 0 ∧
    (smInit wC9 stTwo "A" "pt" []).2 = none ∧
    mapFind (smInit wC9 stTwo "A" "pt" []).1.reg "A" = some 2 ∧
    (smInit wC9 stTwo "A" "pt" []).1.reg.map Prod.fst = ["A", "B"] := by
  have h := c9_reinit_overwrites wC9 stTwo "A" "pt" [] 0 (by decide) (by decide)
    (by decide) (by decide)
  refine ⟨by decide, h.1, h.2.1, ?_⟩
  rw [h.2.2.2.1]
  decide

end IceBoxV
